import Mathlib

/-!
Verification of the semantic indexing and retrieval core of
`second-brain-mcp` (`src/vector-store.ts`), shallowly embedded in Lean 4.

Texts are modelled as `List Char` (one entry per UTF-16 code unit of the
ASCII fragment we reason about), machine numbers as exact rationals,
SQLite tables as Lean lists of record structures, and the fallible
embedding provider as an explicit `Except`-returning function parameter.
-/

/-! ## Chunker (`VectorStore.chunkText`, vector-store.ts lines 156–174) -/

/-- Whitespace trimming of both ends of a character list, modelling
JavaScript `String.prototype.trim()` on the ASCII whitespace fragment
(space, tab, carriage return, line feed). -/
def trimChars (l : List Char) : List Char :=
  ((l.dropWhile Char.isWhitespace).reverse.dropWhile Char.isWhitespace).reverse

/-- Splitting a text at every newline, modelling JavaScript
`text.split('\n')`: the empty text yields one empty line, and a trailing
newline yields a trailing empty line. -/
def splitLines : List Char → List (List Char)
  | [] => [[]]
  | c :: rest =>
    if c = '\n' then [] :: splitLines rest
    else
      match splitLines rest with
      | [] => [[c]]
      | l :: ls => (c :: l) :: ls

/-- One iteration of the loop body of `chunkText`: the state is the pair
(chunks emitted so far, current buffer).  When appending the next line
would push the buffer past the bound and the buffer is non-empty
(JavaScript truthiness of the buffer string), the buffer is flushed
trimmed; either way the line plus a newline is appended to the buffer. -/
def chunkStep (maxChunkSize : Nat) (st : List (List Char) × List Char)
    (line : List Char) : List (List Char) × List Char :=
  let (chunks, cc) := st
  if maxChunkSize < cc.length + line.length ∧ cc ≠ [] then
    (chunks ++ [trimChars cc], line ++ ['\n'])
  else
    (chunks, cc ++ line ++ ['\n'])

/-- The chunker of `vector-store.ts`: fold the loop body over the lines of
the text, then flush the trailing buffer when its trim is non-empty. -/
def chunkText (text : List Char) (maxChunkSize : Nat) : List (List Char) :=
  let r := (splitLines text).foldl (chunkStep maxChunkSize) ([], [])
  if trimChars r.2 = [] then r.1 else r.1 ++ [trimChars r.2]

/-- The same fold as `chunkStep` but recording the raw (untrimmed)
buffers as they are flushed; used to relate the emitted chunks to the
exact text they came from. -/
def chunkRawStep (maxChunkSize : Nat) (st : List (List Char) × List Char)
    (line : List Char) : List (List Char) × List Char :=
  let (chunks, cc) := st
  if maxChunkSize < cc.length + line.length ∧ cc ≠ [] then
    (chunks ++ [cc], line ++ ['\n'])
  else
    (chunks, cc ++ line ++ ['\n'])

/-- The raw segments accumulated by the chunker: the flushed buffers,
untrimmed, plus the trailing buffer. -/
def chunkRaw (text : List Char) (maxChunkSize : Nat) :
    List (List Char) × List Char :=
  (splitLines text).foldl (chunkRawStep maxChunkSize) ([], [])

/-- Reassembly of a chunk list by re-inserting one line separator between
consecutive chunks, the reconstruction the round-trip property speaks
about. -/
def rejoinChunks (cs : List (List Char)) : List Char :=
  List.intercalate ['\n'] cs

/-! ## Cosine similarity (`VectorStore.cosineSimilarity`, lines 176–188)

The loop accumulates `dotProduct`, `normA`, `normB` over the indices of
the first vector.  JavaScript indexing past the end of the second vector
yields `undefined`, and arithmetic on `undefined` yields NaN, which then
propagates; we track this with `Option` (`none` = NaN).  The returned
value `dot / (sqrt normA * sqrt normB)` is represented exactly: since
`sqrt normA * sqrt normB = sqrt (normA * normB)` for the non-negative
sums of squares, a non-NaN result is determined by the pair
(dot, normA * normB); a zero divisor forces `dot = 0` (proved in
`simLoop_dot_eq_zero`), so the division `0 / 0` is NaN. -/

/-- A JavaScript number as produced by `cosineSimilarity`: either NaN, or
the exact real value `d / Real.sqrt nsq` (with `nsq > 0`) represented by
the pair of rationals `(d, nsq)`. -/
inductive JsNum where
  | nan : JsNum
  | val (d : ℚ) (nsq : ℚ) : JsNum
deriving DecidableEq

/-- The accumulator loop of `cosineSimilarity`: walks the indices of the
first vector, returning `(dotProduct, normA, normB)`, or `none` when an
index falls outside the second vector (NaN from `undefined`). -/
def simLoop : List ℚ → List ℚ → Option (ℚ × ℚ × ℚ)
  | [], _ => some (0, 0, 0)
  | _ :: _, [] => none
  | x :: xs, y :: ys =>
    match simLoop xs ys with
    | none => none
    | some (d, na, nb) => some (d + x * y, na + x * x, nb + y * y)

/-- Cosine similarity as computed by the source: dot product divided by
the product of the Euclidean norms, with no guard on the divisor and no
dimension check. -/
def cosineSimilarity (a b : List ℚ) : JsNum :=
  match simLoop a b with
  | none => .nan
  | some (d, na, nb) => if na * nb = 0 then .nan else .val d (na * nb)

/-! ## Persistent store (`VectorStore.initialize` schema, lines 22–45)

Two tables: `files` (rowid primary key, UNIQUE path) and `embeddings`
(primary key (file_id, chunk_index), FOREIGN KEY to files ON DELETE
CASCADE; better-sqlite3 enables foreign-key enforcement, so REPLACE of a
file row cascade-deletes its chunk rows).  Tables are lists in insertion
order; AUTOINCREMENT is the `nextId` counter (never reused). -/

structure IndexedFile where
  path : String
  content : List Char
  mtime : Int
  size : Nat
  extension : String
deriving DecidableEq

structure FileRow where
  id : Nat
  path : String
  content : List Char
  mtime : Int
  size : Nat
  extension : String
deriving DecidableEq

structure EmbRow where
  file_id : Nat
  chunk_index : Nat
  chunk_text : List Char
  embedding : List ℚ
deriving DecidableEq

structure Store where
  nextId : Nat
  files : List FileRow
  embeddings : List EmbRow
deriving DecidableEq

/-- The store created by `initialize` on a fresh database: empty tables,
first rowid 1. -/
def emptyStore : Store := ⟨1, [], []⟩

/-- The well-formedness invariants SQLite enforces for this schema:
distinct rowids, UNIQUE paths, rowids below the AUTOINCREMENT counter,
and the foreign key from chunk rows to their owning file row (no
orphaned chunk rows). -/
structure Store.WF (st : Store) : Prop where
  ids_nodup : (st.files.map (·.id)).Nodup
  paths_nodup : (st.files.map (·.path)).Nodup
  ids_lt : ∀ f ∈ st.files, f.id < st.nextId
  emb_owned : ∀ e ∈ st.embeddings, ∃ f ∈ st.files, f.id = e.file_id

/-- SQLite `INSERT OR REPLACE INTO files`: the conflicting row with the
same UNIQUE path (if any) is deleted, its chunk rows cascade-deleted,
and the new row inserted with the next rowid; returns
`lastInsertRowid`. -/
def insertOrReplaceFile (st : Store) (f : IndexedFile) : Store × Nat :=
  let oldIds := (st.files.filter (fun r => r.path == f.path)).map (·.id)
  let newId := st.nextId
  ({ nextId := newId + 1
     files := st.files.filter (fun r => !(r.path == f.path)) ++
       [⟨newId, f.path, f.content, f.mtime, f.size, f.extension⟩]
     embeddings := st.embeddings.filter (fun e => !(oldIds.contains e.file_id)) },
   newId)

/-- SQLite `INSERT OR REPLACE INTO embeddings`: the row with the same
primary key (file_id, chunk_index), if any, is replaced. -/
def insertOrReplaceEmbedding (st : Store) (fid idx : Nat) (txt : List Char)
    (emb : List ℚ) : Store :=
  { st with
    embeddings :=
      st.embeddings.filter
        (fun e => !(e.file_id == fid && e.chunk_index == idx)) ++
      [⟨fid, idx, txt, emb⟩] }

/-- The external Embedding Client: a batch of chunk texts to one vector
per text, or a provider error. -/
abbrev Client := List (List Char) → Except Unit (List (List ℚ))

/-- A client honouring the collaborator contract: one vector per input
text. -/
def Client.Sound (client : Client) : Prop :=
  ∀ b out, client b = .ok out → out.length = b.length

/-- The inner storage loop of a batch (lines 84–89): for each j below the
batch length, read `response.data[j].embedding` — reading a missing
entry throws, modelled by `.error` with the rows inserted so far kept —
and insert the chunk row at index `idx + j`. -/
def insertBatch (fid : Nat) : Nat → List (List Char) → List (List ℚ) →
    Store → Store × Except Unit Unit
  | _, [], _, st => (st, .ok ())
  | _, _ :: _, [], st => (st, .error ())
  | idx, t :: ts, e :: es, st =>
    insertBatch fid (idx + 1) ts es (insertOrReplaceEmbedding st fid idx t e)

/-- The batching loop of `indexFiles` (lines 74–90): take the next batch
of at most 20 chunks, call the Embedding Client (propagating its
failure with the store as mutated so far), store the batch, continue. -/
def processChunks (client : Client) (fid : Nat) (chunks : List (List Char))
    (i : Nat) (st : Store) : Store × Except Unit Unit :=
  if h : chunks = [] then (st, .ok ())
  else
    match client (chunks.take 20) with
    | .error e => (st, .error e)
    | .ok embs =>
      match insertBatch fid i (chunks.take 20) embs st with
      | (st1, .error e) => (st1, .error e)
      | (st1, .ok _) => processChunks client fid (chunks.drop 20) (i + 20) st1
termination_by chunks.length
decreasing_by
  simp only [List.length_drop]
  cases chunks with
  | nil => exact absurd rfl h
  | cons c cs => simp; omega

/-- Processing of one file by `indexFiles` (lines 58–90): insert the file
row first, then chunk the content with bound 500 and run the batching
loop against the fresh rowid. -/
def indexFile (client : Client) (st : Store) (f : IndexedFile) :
    Store × Except Unit Unit :=
  let r := insertOrReplaceFile st f
  processChunks client r.2 (chunkText f.content 500) 0 r.1

/-- `VectorStore.indexFiles` (lines 47–92): process the files in list
order, stopping at the first failure; resolves with no value
(`Promise<void>`), modelled by the unit payload of `.ok`. -/
def indexFiles (client : Client) (st : Store) :
    List IndexedFile → Store × Except Unit Unit
  | [] => (st, .ok ())
  | f :: fs =>
    match indexFile client st f with
    | (st1, .ok _) => indexFiles client st1 fs
    | (st1, .error e) => (st1, .error e)

/-! ## Searcher (`VectorStore.search`, lines 94–134) -/

structure SearchResult where
  path : String
  content : List Char
  score : JsNum
  mtime : Int
deriving DecidableEq

/-- The full scan `SELECT ... FROM embeddings e JOIN files f ON
e.file_id = f.id`: every chunk row paired with its owning file row, in
chunk-row order (the retrieval order the stable sort is relative to). -/
def retrieve (st : Store) : List (FileRow × EmbRow) :=
  st.embeddings.filterMap (fun e =>
    match st.files.find? (fun f => f.id == e.file_id) with
    | none => none
    | some f => some (f, e))

/-- One retrieved row mapped to a search result (lines 120–130): the
score is the cosine similarity of the query vector and the chunk
vector. -/
def scoreRow (queryEmbedding : List ℚ) (r : FileRow × EmbRow) : SearchResult :=
  ⟨r.1.path, r.2.chunk_text, cosineSimilarity queryEmbedding r.2.embedding,
    r.1.mtime⟩

/-- Score comparison as induced by the sort comparator
`(a, b) => b.score - a.score` under ECMAScript SortCompare semantics: a
NaN comparator result is treated as +0, a tie.  For two genuine values
`d1 / sqrt n1` and `d2 / sqrt n2` (with `n1, n2 > 0`), the comparison
`d2 / sqrt n2 ≤ d1 / sqrt n1` is equivalent to the rational comparison
`d2*|d2|*n1 ≤ d1*|d1|*n2` because `t ↦ t * |t|` is strictly monotone
(`scoreGe_iff_real_le` below proves this equivalence). -/
def scoreGe : JsNum → JsNum → Bool
  | .nan, _ => true
  | .val _ _, .nan => true
  | .val d1 n1, .val d2 n2 => decide (d2 * |d2| * n1 ≤ d1 * |d1| * n2)

/-- Stable insertion: the element, which comes earlier in the original
order than everything in the list, goes before the first element it
need not follow. -/
def insertSortedBy (le : α → α → Bool) (x : α) : List α → List α
  | [] => [x]
  | y :: ys => if le x y then x :: y :: ys else y :: insertSortedBy le x ys

/-- Stable insertion sort with respect to a Boolean comparison meaning
the first argument may stay before the second. -/
def stableSortBy (le : α → α → Bool) : List α → List α
  | [] => []
  | x :: xs => insertSortedBy le x (stableSortBy le xs)

/-- The stable descending-by-score sort of line 133.  `Array.prototype
.sort` is required to be stable; on a consistent comparator every stable
sort produces the same output, so insertion sort is a faithful model. -/
def sortResults : List SearchResult → List SearchResult :=
  stableSortBy (fun a b => scoreGe a.score b.score)

/-- JavaScript `Array.prototype.slice(0, e)`: a negative end counts from
the end of the array. -/
def jsSlice (l : List α) (e : Int) : List α :=
  l.take (if e < 0 then ((l.length : Int) + e).toNat else e.toNat)

/-- All scored results in sorted order, before truncation. -/
def searchOrdered (st : Store) (queryEmbedding : List ℚ) : List SearchResult :=
  sortResults ((retrieve st).map (scoreRow queryEmbedding))

/-- `VectorStore.search` given the query's embedding vector: scan, score,
stable-sort descending, truncate to `limit`. -/
def search (st : Store) (queryEmbedding : List ℚ) (limit : Int) :
    List SearchResult :=
  jsSlice (searchOrdered st queryEmbedding) limit

/-! ## Activity query (`VectorStore.getRecentFiles`, lines 136–154) -/

structure RecentFile where
  path : String
  mtime : Int
deriving DecidableEq

/-- The `ORDER BY mtime DESC` sort of `getRecentFiles`. -/
def sortByMtimeDesc : List FileRow → List FileRow :=
  stableSortBy (fun a b => decide (b.mtime ≤ a.mtime))

/-- `getRecentFiles(days)`: cutoff is now minus `days × 24×60×60×1000`
milliseconds (the same duration as days × 86400 seconds); keep the file
rows with `mtime > cutoff`, newest first. -/
def getRecentFiles (st : Store) (now days : Int) : List RecentFile :=
  let cutoff := now - days * 86400000
  (sortByMtimeDesc (st.files.filter (fun r => cutoff < r.mtime))).map
    (fun r => ⟨r.path, r.mtime⟩)

/-! ## Derived store queries used by the claims -/

/-- The file rows stored under a path. -/
def filesFor (st : Store) (p : String) : List FileRow :=
  st.files.filter (fun r => r.path == p)

/-- The rowids stored under a path. -/
def idsFor (st : Store) (p : String) : List Nat :=
  (filesFor st p).map (·.id)

/-- The chunk rows joined (by file_id) to the file rows of a path. -/
def chunksFor (st : Store) (p : String) : List EmbRow :=
  st.embeddings.filter (fun e => (idsFor st p).contains e.file_id)

/-- A file is fully committed in a store: exactly one file record under
its path carrying its data, whose joined chunk rows are exactly the
chunking of its content, indexed contiguously from 0. -/
def committedIn (st : Store) (f : IndexedFile) : Prop :=
  (filesFor st f.path).map
      (fun r => (r.content, r.mtime, r.size, r.extension)) =
    [(f.content, f.mtime, f.size, f.extension)] ∧
  (chunksFor st f.path).map (fun e => (e.chunk_index, e.chunk_text)) =
    (chunkText f.content 500).enum

/-- A path's rows are untouched between two stores: same file rows and
same chunk rows joined to them. -/
def untouchedAt (st st' : Store) (p : String) : Prop :=
  filesFor st' p = filesFor st p ∧
  st'.embeddings.filter (fun e => (idsFor st p).contains e.file_id) =
    st.embeddings.filter (fun e => (idsFor st p).contains e.file_id)

/-! ## Concrete data used by witnesses -/

/-- An embedding client that always succeeds and returns the
one-dimensional vector (1) for every text. -/
def okClient : Client := fun b => .ok (b.map (fun _ => [(1 : ℚ)]))

/-- An embedding client that fails exactly on the batch holding the
single chunk y, and succeeds elsewhere. -/
def failYClient : Client := fun b =>
  if b = [['y']] then .error () else .ok (b.map (fun _ => [(1 : ℚ)]))

def fileX : IndexedFile := ⟨"x.txt", ['x'], 0, 1, ".txt"⟩

def fileY : IndexedFile := ⟨"y.txt", ['y'], 5, 1, ".txt"⟩

def fileZ : IndexedFile := ⟨"z.txt", ['z'], 9, 1, ".txt"⟩

/-- Two input files sharing one path, used to exhibit the duplicate-path
behaviour of a single indexFiles call. -/
def dupA : IndexedFile := ⟨"p", ['x'], 0, 1, ""⟩

def dupB : IndexedFile := ⟨"p", ['y'], 5, 1, ""⟩

/-- A small populated store: two files, three chunk vectors. -/
def sampleStore : Store :=
  ⟨3, [⟨1, "a", ['a'], 10, 1, ""⟩, ⟨2, "b", ['b'], 20, 1, ""⟩],
    [⟨1, 0, ['a'], [1, 0]⟩, ⟨2, 0, ['b'], [0, 1]⟩, ⟨1, 1, ['c'], [1, 1]⟩]⟩

/-! # Theorems -/

theorem splitLines_ne_nil (t : List Char) : splitLines t ≠ [] := by
  induction t with
  | nil => simp [splitLines]
  | cons c rest ih =>
    simp only [splitLines]
    split
    · simp
    · cases h : splitLines rest with
      | nil => simp
      | cons l ls => simp

/-- Joining the split lines, each with a newline re-attached, recovers the
text plus one trailing newline. -/
theorem splitLines_join (t : List Char) :
    ((splitLines t).map (· ++ ['\n'])).flatten = t ++ ['\n'] := by
  induction t with
  | nil => simp [splitLines]
  | cons c rest ih =>
    simp only [splitLines]
    split
    · rename_i hc
      subst hc
      simpa using ih
    · cases h : splitLines rest with
      | nil => exact absurd h (splitLines_ne_nil rest)
      | cons l ls =>
        rw [h] at ih
        simpa using ih

/-- The trimming fold is the raw fold with `trimChars` applied to every
flushed buffer; the running buffer is identical in both. -/
theorem chunkFold_eq_raw (B : Nat) (lines : List (List Char))
    (chunks rchunks : List (List Char)) (cc : List Char)
    (h : chunks = rchunks.map trimChars) :
    lines.foldl (chunkStep B) (chunks, cc) =
      (((lines.foldl (chunkRawStep B) (rchunks, cc)).1).map trimChars,
        (lines.foldl (chunkRawStep B) (rchunks, cc)).2) := by
  induction lines generalizing chunks rchunks cc with
  | nil => simpa using h
  | cons line rest ih =>
    simp only [List.foldl_cons, chunkStep, chunkRawStep]
    split
    · exact ih (chunks ++ [trimChars cc]) (rchunks ++ [cc]) (line ++ ['\n'])
        (by simp [h])
    · exact ih chunks rchunks (cc ++ line ++ ['\n']) h

/-- Content accounting for the raw fold: the flushed buffers plus the
running buffer always hold exactly the lines consumed so far. -/
theorem chunkRawFold_content (B : Nat) (lines : List (List Char))
    (rchunks : List (List Char)) (cc : List Char) :
    ((lines.foldl (chunkRawStep B) (rchunks, cc)).1).flatten ++
        (lines.foldl (chunkRawStep B) (rchunks, cc)).2 =
      rchunks.flatten ++ cc ++ (lines.map (· ++ ['\n'])).flatten := by
  induction lines generalizing rchunks cc with
  | nil => simp
  | cons line rest ih =>
    simp only [List.foldl_cons, chunkRawStep]
    split
    · rw [ih]
      simp
    · rw [ih]
      simp

/-- C2 (amended): the chunker's round trip is lossless only up to the
whitespace trimming applied to every emitted chunk: concatenating the
raw (untrimmed) segments the chunker accumulates reproduces the text
followed by one trailing newline, and the emitted chunks are exactly
the whitespace-trims of those segments, with a trailing all-whitespace
segment dropped. -/
theorem c2_chunk_trim_roundtrip (text : List Char) (B : Nat) :
    ((chunkRaw text B).1).flatten ++ (chunkRaw text B).2 = text ++ ['\n'] ∧
    chunkText text B =
      (if trimChars (chunkRaw text B).2 = []
       then ((chunkRaw text B).1).map trimChars
       else ((chunkRaw text B).1).map trimChars ++
         [trimChars (chunkRaw text B).2]) := by
  constructor
  · have h := chunkRawFold_content B (splitLines text) [] []
    unfold chunkRaw
    rw [h]
    simpa using splitLines_join text
  · have h := chunkFold_eq_raw B (splitLines text) [] [] [] (by simp)
    simp only [chunkText, chunkRaw] at h ⊢
    rw [h]

/-- C2 is false as stated: for the non-empty text consisting of a space
followed by the letter a (and any bound), re-joining the produced
chunks with the line separators does not reproduce the text — the
leading space is lost to trimming. -/
theorem c2_roundtrip_counterexample :
    ([' ', 'a'] : List Char) ≠ [] ∧
    rejoinChunks (chunkText [' ', 'a'] 500) ≠ [' ', 'a'] := by
  decide

set_option maxRecDepth 4000 in
/-- C6 fails on the code: on the text a-newline-newline-b with bound 1
the chunker emits an empty chunk, because the mid-loop flush guard
tests the raw buffer for truthiness but pushes its trim, and a buffer
holding only whitespace trims to the empty chunk.  The same slip fires
at the production bound 500 on a whitespace-only line longer than the
bound.  The final-flush guard of the same function explicitly refuses
to push an empty trimmed buffer, so non-empty chunks are clearly the
intent and this is a code bug. -/
theorem c6_empty_chunk_bug :
    chunkText ['a', '\n', '\n', 'b'] 1 = [['a'], [], ['b']] ∧
    [] ∈ chunkText ['a', '\n', '\n', 'b'] 1 ∧
    chunkText (List.replicate 501 ' ' ++ ['\n', 'x']) 500 = [[], ['x']] := by
  decide

/-- NaN propagation in the accumulator loop: the loop hits an
out-of-bounds read of the second vector exactly when the second vector
is shorter than the first. -/
theorem simLoop_eq_none_iff (a b : List ℚ) :
    simLoop a b = none ↔ b.length < a.length := by
  induction a generalizing b with
  | nil => simp [simLoop]
  | cons x xs ih =>
    cases b with
    | nil => simp [simLoop]
    | cons y ys =>
      simp only [simLoop, List.length_cons]
      cases h : simLoop xs ys with
      | none =>
        have := (ih ys).mp h
        simp only [h]
        simpa using this
      | some r =>
        have := (ih ys).not.mp (by simp [h])
        obtain ⟨d, na, nb⟩ := r
        simp only [h]
        simpa using this

/-- The loop only ever reads the first `a.length` entries of the second
vector. -/
theorem simLoop_take (a b : List ℚ) (h : a.length ≤ b.length) :
    simLoop a b = simLoop a (b.take a.length) := by
  induction a generalizing b with
  | nil => simp [simLoop]
  | cons x xs ih =>
    cases b with
    | nil => simp at h
    | cons y ys =>
      simp only [List.length_cons, List.take_succ_cons, simLoop]
      rw [ih ys (by simpa using h)]

/-- C4 (amended): mismatched dimensionality is not detected and is not a
fatal error.  When the second vector is shorter, the out-of-bounds
reads make the result NaN; when the first vector is shorter, the extra
entries of the second vector are silently ignored and a numeric score
is produced.  Search completes either way. -/
theorem c4_mismatch_behavior (a b : List ℚ) :
    (b.length < a.length → cosineSimilarity a b = .nan) ∧
    (a.length ≤ b.length →
      cosineSimilarity a b = cosineSimilarity a (b.take a.length)) := by
  constructor
  · intro h
    unfold cosineSimilarity
    rw [(simLoop_eq_none_iff a b).mpr h]
  · intro h
    unfold cosineSimilarity
    rw [simLoop_take a b h]

/-- The two norm accumulators are sums of squares, hence non-negative. -/
theorem simLoop_nonneg (a b : List ℚ) (d na nb : ℚ)
    (h : simLoop a b = some (d, na, nb)) : 0 ≤ na ∧ 0 ≤ nb := by
  induction a generalizing b d na nb with
  | nil =>
    simp only [simLoop, Option.some.injEq, Prod.mk.injEq] at h
    obtain ⟨-, h2, h3⟩ := h
    constructor <;> simp [← h2, ← h3]
  | cons x xs ih =>
    cases b with
    | nil => simp [simLoop] at h
    | cons y ys =>
      simp only [simLoop] at h
      cases hr : simLoop xs ys with
      | none => rw [hr] at h; simp at h
      | some r =>
        obtain ⟨d', na', nb'⟩ := r
        rw [hr] at h
        simp only [Option.some.injEq, Prod.mk.injEq] at h
        obtain ⟨-, h2, h3⟩ := h
        obtain ⟨hna, hnb⟩ := ih ys d' na' nb' hr
        constructor
        · rw [← h2]; nlinarith
        · rw [← h3]; nlinarith

/-- When the divisor of `cosineSimilarity` is zero, one of the two
vectors (restricted to the visited indices) is the zero vector, so the
dot product is forced to be zero as well: the source's division is then
exactly `0 / 0`, which is NaN. -/
theorem simLoop_dot_eq_zero (a b : List ℚ) (d na nb : ℚ)
    (h : simLoop a b = some (d, na, nb)) (hz : na * nb = 0) : d = 0 := by
  induction a generalizing b d na nb with
  | nil =>
    simp only [simLoop, Option.some.injEq, Prod.mk.injEq] at h
    exact h.1.symm
  | cons x xs ih =>
    cases b with
    | nil => simp [simLoop] at h
    | cons y ys =>
      simp only [simLoop] at h
      cases hr : simLoop xs ys with
      | none => rw [hr] at h; simp at h
      | some r =>
        obtain ⟨d', na', nb'⟩ := r
        rw [hr] at h
        simp only [Option.some.injEq, Prod.mk.injEq] at h
        obtain ⟨h1, h2, h3⟩ := h
        obtain ⟨hna, hnb⟩ := simLoop_nonneg xs ys d' na' nb' hr
        rcases mul_eq_zero.mp hz with h0 | h0
        · have hx : x = 0 ∧ na' = 0 := by
            rw [← h2] at h0
            constructor <;> nlinarith
          have hd' : d' = 0 := ih ys d' na' nb' hr (by rw [hx.2]; ring)
          rw [← h1, hd', hx.1]; ring
        · have hy : y = 0 ∧ nb' = 0 := by
            rw [← h3] at h0
            constructor <;> nlinarith
          have hd' : d' = 0 := ih ys d' na' nb' hr (by rw [hy.2]; ring)
          rw [← h1, hd', hy.1]; ring

theorem simLoop_zeros_left (n : Nat) (v : List ℚ) (h : n ≤ v.length) :
    ∃ nb, simLoop (List.replicate n 0) v = some (0, 0, nb) := by
  induction n generalizing v with
  | zero => exact ⟨0, rfl⟩
  | succ m ih =>
    cases v with
    | nil => simp at h
    | cons y ys =>
      obtain ⟨nb, hnb⟩ := ih ys (by simpa using h)
      refine ⟨nb + y * y, ?_⟩
      simp [List.replicate_succ, simLoop, hnb]

theorem simLoop_zeros_right (a : List ℚ) (n : Nat) (h : a.length ≤ n) :
    ∃ na, simLoop a (List.replicate n 0) = some (0, na, 0) := by
  induction a generalizing n with
  | nil => exact ⟨0, rfl⟩
  | cons x xs ih =>
    cases n with
    | zero => simp at h
    | succ m =>
      obtain ⟨na, hna⟩ := ih m (by simpa using h)
      refine ⟨na + x * x, ?_⟩
      simp [List.replicate_succ, simLoop, hna]

theorem cosineSimilarity_zeros_left (n : Nat) (v : List ℚ) :
    cosineSimilarity (List.replicate n 0) v = .nan := by
  rcases le_or_lt n v.length with h | h
  · obtain ⟨nb, hnb⟩ := simLoop_zeros_left n v h
    simp [cosineSimilarity, hnb]
  · unfold cosineSimilarity
    rw [(simLoop_eq_none_iff _ v).mpr (by simpa using h)]

theorem cosineSimilarity_zeros_right (a : List ℚ) (n : Nat) :
    cosineSimilarity a (List.replicate n 0) = .nan := by
  rcases le_or_lt a.length n with h | h
  · obtain ⟨na, hna⟩ := simLoop_zeros_right a n h
    simp [cosineSimilarity, hna]
  · unfold cosineSimilarity
    rw [(simLoop_eq_none_iff a _).mpr (by simpa using h)]

/-- C9: the division in `cosineSimilarity` is not guarded against a zero
divisor.  An all-zero vector on either side (including paired with
itself) makes the product of the norms zero and the result NaN rather
than an error, and `search` then silently carries the NaN score in its
results, as the concrete third conjunct shows. -/
theorem c9_zero_vector_nan :
    (∀ (n : Nat) (v : List ℚ), cosineSimilarity (List.replicate n 0) v = .nan) ∧
    (∀ (a : List ℚ) (n : Nat), cosineSimilarity a (List.replicate n 0) = .nan) ∧
    search ⟨2, [⟨1, "p", ['t'], 0, 1, ""⟩], [⟨1, 0, ['t'], [0, 0]⟩]⟩ [1, 2] 5 =
      [⟨"p", ['t'], .nan, 0⟩] :=
  ⟨cosineSimilarity_zeros_left, cosineSimilarity_zeros_right,
    by with_unfolding_all rfl⟩

/-- C4 is false as stated: the vectors of lengths 1 and 2 have differing
dimensionality, yet `cosineSimilarity` produces the numeric score 1
(the extra entry of the longer vector is silently ignored) and `search`
over a store holding the two-dimensional chunk vector completes
normally with that score instead of failing. -/
theorem c4_mismatch_counterexample :
    cosineSimilarity [(1 : ℚ)] [1, 1] = .val 1 1 ∧
    JsNum.val 1 1 ≠ .nan ∧
    ([(1 : ℚ)]).length ≠ ([(1 : ℚ), 1]).length ∧
    search ⟨2, [⟨1, "p", ['t'], 0, 1, ""⟩], [⟨1, 0, ['t'], [1, 1]⟩]⟩ [1] 5 =
      [⟨"p", ['t'], .val 1 1, 0⟩] :=
  ⟨by with_unfolding_all rfl, by simp, by simp, by with_unfolding_all rfl⟩

/-- Witness for `c4_mismatch_behavior` at concrete inputs: the pairs
([1,2], [1]) and ([1], [1,1]) discharge its two hypotheses. -/
theorem c4_witness :
    (([1] : List ℚ).length < ([1, 2] : List ℚ).length ∧
      cosineSimilarity [(1 : ℚ), 2] [1] = .nan) ∧
    (([1] : List ℚ).length ≤ ([1, 1] : List ℚ).length ∧
      cosineSimilarity [(1 : ℚ)] [1, 1] =
        cosineSimilarity [(1 : ℚ)] (([1, 1] : List ℚ).take 1)) :=
  ⟨⟨by simp, (c4_mismatch_behavior [1, 2] [1]).1 (by simp)⟩,
    ⟨by simp, (c4_mismatch_behavior [1] [1, 1]).2 (by simp)⟩⟩

/-- The map t to t times its absolute value is strictly monotone on the
reals; it is the sign-preserving square used to eliminate the square
roots from score comparisons. -/
theorem mulAbs_strictMono : StrictMono (fun t : ℝ => t * |t|) := by
  intro x y hxy
  simp only
  rcases le_or_lt 0 x with hx | hx
  · have hy : 0 < y := lt_of_le_of_lt hx hxy
    rw [abs_of_nonneg hx, abs_of_pos hy]
    exact mul_self_lt_mul_self hx hxy
  · rcases le_or_lt 0 y with hy | hy
    · have h1 : x * |x| < 0 := by rw [abs_of_neg hx]; nlinarith
      have h2 : 0 ≤ y * |y| := by rw [abs_of_nonneg hy]; positivity
      linarith
    · rw [abs_of_neg hx, abs_of_neg hy]
      nlinarith

/-- Justification of the rational representation of score comparisons:
for genuine (non-NaN) scores the Boolean `scoreGe` agrees exactly with
the real-number comparison of the cosine values d / sqrt n. -/
theorem scoreGe_iff_real_le (d1 n1 d2 n2 : ℚ) (h1 : 0 < n1) (h2 : 0 < n2) :
    scoreGe (.val d1 n1) (.val d2 n2) = true ↔
      (d2 : ℝ) / Real.sqrt (n2 : ℝ) ≤ (d1 : ℝ) / Real.sqrt (n1 : ℝ) := by
  have h1R : (0:ℝ) < (n1 : ℝ) := by exact_mod_cast h1
  have h2R : (0:ℝ) < (n2 : ℝ) := by exact_mod_cast h2
  have s1 : (0:ℝ) < Real.sqrt (n1 : ℝ) := Real.sqrt_pos.mpr h1R
  have s2 : (0:ℝ) < Real.sqrt (n2 : ℝ) := Real.sqrt_pos.mpr h2R
  have key : ∀ (d n : ℝ), 0 < n →
      (d * Real.sqrt n) * |d * Real.sqrt n| = d * |d| * n := by
    intro d n hn
    have hsq : Real.sqrt n * Real.sqrt n = n := Real.mul_self_sqrt (le_of_lt hn)
    rw [abs_mul, abs_of_nonneg (Real.sqrt_nonneg n)]
    calc (d * Real.sqrt n) * (|d| * Real.sqrt n)
        = d * |d| * (Real.sqrt n * Real.sqrt n) := by ring
      _ = d * |d| * n := by rw [hsq]
  have step : ((d2 : ℝ) / Real.sqrt (n2 : ℝ) ≤ (d1 : ℝ) / Real.sqrt (n1 : ℝ)) ↔
      ((d2 : ℝ) * |(d2 : ℝ)| * (n1 : ℝ) ≤ (d1 : ℝ) * |(d1 : ℝ)| * (n2 : ℝ)) := by
    rw [div_le_div_iff₀ s2 s1, ← mulAbs_strictMono.le_iff_le]
    simp only [key ((d2 : ℝ)) ((n1 : ℝ)) h1R, key ((d1 : ℝ)) ((n2 : ℝ)) h2R]
  rw [step]
  simp only [scoreGe, decide_eq_true_eq]
  constructor
  · intro h; exact_mod_cast h
  · intro h; exact_mod_cast h

/-- A score ties with itself under the comparator order. -/
theorem scoreGe_refl (s : JsNum) : scoreGe s s = true := by
  cases s with
  | nan => rfl
  | val d n => simp [scoreGe]

/-- Totality of the comparator order (a NaN comparison is a tie in both
directions). -/
theorem scoreGe_total (x y : JsNum) :
    scoreGe x y = true ∨ scoreGe y x = true := by
  cases x with
  | nan => left; rfl
  | val d1 n1 =>
    cases y with
    | nan => left; rfl
    | val d2 n2 =>
      simp only [scoreGe, decide_eq_true_eq]
      exact le_total _ _

theorem insertSortedBy_head (le : α → α → Bool) (x : α) (l : List α) :
    (insertSortedBy le x l).head? = some x ∨
      (insertSortedBy le x l).head? = l.head? := by
  cases l with
  | nil => left; rfl
  | cons y ys =>
    by_cases h : le x y
    · left; simp [insertSortedBy, h]
    · right; simp [insertSortedBy, h]

theorem chain_insertSortedBy (le : α → α → Bool)
    (htot : ∀ a b, le a b = true ∨ le b a = true) (x : α) (l : List α)
    (h : List.Chain' (fun a b => le a b = true) l) :
    List.Chain' (fun a b => le a b = true) (insertSortedBy le x l) := by
  induction l with
  | nil => simp [insertSortedBy]
  | cons y ys ih =>
    rw [List.chain'_cons'] at h
    obtain ⟨hy, hys⟩ := h
    by_cases hxy : le x y
    · simp only [insertSortedBy, hxy, if_true]
      rw [List.chain'_cons']
      refine ⟨?_, List.chain'_cons'.mpr ⟨hy, hys⟩⟩
      intro b hb
      simp only [List.head?_cons, Option.mem_def, Option.some.injEq] at hb
      rw [← hb]
      exact hxy
    · simp only [insertSortedBy]
      rw [if_neg hxy, List.chain'_cons']
      refine ⟨?_, ih hys⟩
      intro b hb
      rcases insertSortedBy_head le x ys with hh | hh
      · rw [hh] at hb
        simp only [Option.mem_def, Option.some.injEq] at hb
        rw [← hb]
        rcases htot x y with ht | ht
        · exact absurd ht hxy
        · exact ht
      · rw [hh] at hb
        exact hy b hb

theorem chain_stableSortBy (le : α → α → Bool)
    (htot : ∀ a b, le a b = true ∨ le b a = true) (l : List α) :
    List.Chain' (fun a b => le a b = true) (stableSortBy le l) := by
  induction l with
  | nil => simp [stableSortBy]
  | cons x xs ih => exact chain_insertSortedBy le htot x _ ih

theorem insertSortedBy_perm (le : α → α → Bool) (x : α) (l : List α) :
    (insertSortedBy le x l).Perm (x :: l) := by
  induction l with
  | nil => simp [insertSortedBy]
  | cons y ys ih =>
    by_cases h : le x y
    · simp [insertSortedBy, h]
    · simp only [insertSortedBy, h, if_false]
      exact (ih.cons y).trans (List.Perm.swap x y ys)

theorem stableSortBy_perm (le : α → α → Bool) (l : List α) :
    (stableSortBy le l).Perm l := by
  induction l with
  | nil => simp [stableSortBy]
  | cons x xs ih =>
    exact (insertSortedBy_perm le x _).trans (ih.cons x)

/-- Stability of the insertion step: the elements selected by a
predicate whose members are pairwise tied keep their original relative
order. -/
theorem filter_insertSortedBy (le : α → α → Bool) (p : α → Bool)
    (hp : ∀ a b, p a = true → p b = true → le a b = true) (x : α)
    (l : List α) :
    (insertSortedBy le x l).filter p = (x :: l).filter p := by
  induction l with
  | nil => rfl
  | cons y ys ih =>
    by_cases h : le x y
    · simp [insertSortedBy, h]
    · simp only [insertSortedBy, h, if_false]
      by_cases hx : p x
      · by_cases hy : p y
        · exact absurd (hp x y hx hy) (by simpa using h)
        · simp [List.filter_cons, hx, hy, ih]
      · by_cases hy : p y <;> simp [List.filter_cons, hx, hy, ih]

theorem filter_stableSortBy (le : α → α → Bool) (p : α → Bool)
    (hp : ∀ a b, p a = true → p b = true → le a b = true) (l : List α) :
    (stableSortBy le l).filter p = l.filter p := by
  induction l with
  | nil => rfl
  | cons x xs ih =>
    rw [stableSortBy, filter_insertSortedBy le p hp x _]
    simp [List.filter_cons, ih]

theorem jsSlice_zero (l : List α) : jsSlice l 0 = [] := by
  simp [jsSlice]

theorem jsSlice_of_le (l : List α) (e : Int) (h : (l.length : Int) ≤ e) :
    jsSlice l e = l := by
  unfold jsSlice
  rw [if_neg (by omega)]
  exact List.take_of_length_le (by omega)

/-- C3: search returns the scored chunks stable-sorted descending by
score and truncated by slice to the first limit entries.  The sorted
sequence is a permutation of the retrieval-order sequence, elements of
equal score keep their retrieval order, adjacent results satisfy
r i score at least r (i+1) score in the comparator order (for non-NaN
scores this is exactly the real cosine comparison, by
`scoreGe_iff_real_le`), limit 0 yields the empty result, and a limit at
least the number of stored chunks yields all of them. -/
theorem c3_search_contract (st : Store) (qe : List ℚ) (limit : Int)
    (hlim : 0 ≤ limit) :
    search st qe limit = jsSlice (searchOrdered st qe) limit ∧
    List.Chain' (fun a b => scoreGe a.score b.score = true)
      (search st qe limit) ∧
    (searchOrdered st qe).Perm ((retrieve st).map (scoreRow qe)) ∧
    (∀ v : JsNum, (searchOrdered st qe).filter (fun r => r.score == v) =
      ((retrieve st).map (scoreRow qe)).filter (fun r => r.score == v)) ∧
    (limit = 0 → search st qe limit = []) ∧
    ((((retrieve st).map (scoreRow qe)).length : Int) ≤ limit →
      search st qe limit = searchOrdered st qe) := by
  have htot : ∀ a b : SearchResult,
      (fun a b : SearchResult => scoreGe a.score b.score) a b = true ∨
        (fun a b : SearchResult => scoreGe a.score b.score) b a = true :=
    fun a b => scoreGe_total a.score b.score
  refine ⟨rfl, ?_, stableSortBy_perm _ _, fun v => ?_, ?_, ?_⟩
  · have hc := chain_stableSortBy _ htot ((retrieve st).map (scoreRow qe))
    show List.Chain' _ (jsSlice (searchOrdered st qe) limit)
    unfold jsSlice
    exact hc.take _
  · refine filter_stableSortBy _ _ ?_ _
    intro a b ha hb
    have ha' : a.score = v := by simpa using ha
    have hb' : b.score = v := by simpa using hb
    rw [ha', hb']
    exact scoreGe_refl v
  · intro h
    rw [h]
    exact jsSlice_zero _
  · intro h
    apply jsSlice_of_le
    unfold searchOrdered sortResults
    rw [(stableSortBy_perm _ _).length_eq]
    exact h

/-- Witness for `c3_search_contract` on the populated `sampleStore`,
query vector (1, 0) and limit 2. -/
theorem c3_witness :
    (0 : Int) ≤ 2 ∧
    (search sampleStore [1, 0] 2 = jsSlice (searchOrdered sampleStore [1, 0]) 2 ∧
    List.Chain' (fun a b => scoreGe a.score b.score = true)
      (search sampleStore [1, 0] 2) ∧
    (searchOrdered sampleStore [1, 0]).Perm
      ((retrieve sampleStore).map (scoreRow [1, 0])) ∧
    (∀ v : JsNum,
      (searchOrdered sampleStore [1, 0]).filter (fun r => r.score == v) =
      ((retrieve sampleStore).map (scoreRow [1, 0])).filter
        (fun r => r.score == v)) ∧
    ((2 : Int) = 0 → search sampleStore [1, 0] 2 = []) ∧
    ((((retrieve sampleStore).map (scoreRow [1, 0])).length : Int) ≤ 2 →
      search sampleStore [1, 0] 2 = searchOrdered sampleStore [1, 0])) :=
  ⟨by decide, c3_search_contract sampleStore [1, 0] 2 (by decide)⟩

/-- C7: recentFiles computes the cutoff now minus days times 86400000
milliseconds (the duration days times 86400 seconds), and returns
exactly the stored file records with modification time strictly greater
than the cutoff, newest first; with days 0 every returned record is
strictly newer than now. -/
theorem c7_recent_files (st : Store) (now days : Int) (hd : 0 ≤ days) :
    List.Chain' (fun a b : RecentFile => b.mtime ≤ a.mtime)
      (getRecentFiles st now days) ∧
    (getRecentFiles st now days).Perm
      ((st.files.filter (fun r => now - days * 86400000 < r.mtime)).map
        (fun r => ⟨r.path, r.mtime⟩)) ∧
    (∀ r ∈ getRecentFiles st now days, now - days * 86400000 < r.mtime) ∧
    (days = 0 → ∀ r ∈ getRecentFiles st now days, now < r.mtime) := by
  have hmem : ∀ r ∈ getRecentFiles st now days,
      now - days * 86400000 < r.mtime := by
    intro r hr
    unfold getRecentFiles at hr
    simp only [List.mem_map] at hr
    obtain ⟨row, hrow, hmap⟩ := hr
    have h1 : row ∈ st.files.filter
        (fun r => now - days * 86400000 < r.mtime) :=
      ((stableSortBy_perm _ _).mem_iff).mp hrow
    have h2 := (List.mem_filter.mp h1).2
    rw [← hmap]
    simpa using h2
  refine ⟨?_, ?_, hmem, ?_⟩
  · unfold getRecentFiles
    rw [List.chain'_map]
    have hchain := chain_stableSortBy
      (fun a b : FileRow => decide (b.mtime ≤ a.mtime))
      (fun a b => by
        rcases le_total b.mtime a.mtime with h | h
        · left; simpa using h
        · right; simpa using h)
      (st.files.filter (fun r => now - days * 86400000 < r.mtime))
    refine hchain.imp ?_
    intro a b hab
    simpa using hab
  · unfold getRecentFiles
    exact (stableSortBy_perm _ _).map _
  · intro h r hr
    have := hmem r hr
    rw [h] at this
    simpa using this

/-- Witness for `c7_recent_files` on `sampleStore` at now 86400010 and
days 1 (cutoff 10, keeping only the file with modification time 20). -/
theorem c7_witness :
    (0 : Int) ≤ 1 ∧
    (List.Chain' (fun a b : RecentFile => b.mtime ≤ a.mtime)
      (getRecentFiles sampleStore 86400010 1) ∧
    (getRecentFiles sampleStore 86400010 1).Perm
      ((sampleStore.files.filter
        (fun r => (86400010 : Int) - 1 * 86400000 < r.mtime)).map
        (fun r => ⟨r.path, r.mtime⟩)) ∧
    (∀ r ∈ getRecentFiles sampleStore 86400010 1,
      (86400010 : Int) - 1 * 86400000 < r.mtime) ∧
    ((1 : Int) = 0 → ∀ r ∈ getRecentFiles sampleStore 86400010 1,
      (86400010 : Int) < r.mtime)) :=
  ⟨by decide, c7_recent_files sampleStore 86400010 1 (by decide)⟩

theorem insertBatch_spec (fid : Nat) (ts : List (List Char)) :
    ∀ (es : List (List ℚ)) (idx : Nat) (st : Store),
    (∀ e ∈ st.embeddings, ¬(e.file_id = fid ∧ idx ≤ e.chunk_index)) →
    ∃ rows : List EmbRow,
      (insertBatch fid idx ts es st).1.nextId = st.nextId ∧
      (insertBatch fid idx ts es st).1.files = st.files ∧
      (insertBatch fid idx ts es st).1.embeddings = st.embeddings ++ rows ∧
      (∀ e ∈ rows, e.file_id = fid ∧ idx ≤ e.chunk_index) ∧
      rows.map (fun e => (e.chunk_index, e.chunk_text)) =
        List.enumFrom idx (ts.take es.length) ∧
      ((insertBatch fid idx ts es st).2 = .ok () ↔ ts.length ≤ es.length) := by
  induction ts with
  | nil =>
    intro es idx st hpre
    refine ⟨[], rfl, rfl, by simp [insertBatch], by simp, by simp, ?_⟩
    simp [insertBatch]
  | cons t ts ih =>
    intro es idx st hpre
    cases es with
    | nil =>
      refine ⟨[], rfl, rfl, by simp [insertBatch], by simp, by simp, ?_⟩
      simp [insertBatch]
    | cons e es' =>
      have hfilter : st.embeddings.filter
          (fun r => !(r.file_id == fid && r.chunk_index == idx)) =
            st.embeddings := by
        apply List.filter_eq_self.mpr
        intro a ha
        have h := hpre a ha
        simp only [Bool.not_eq_eq_eq_not, Bool.not_true, Bool.and_eq_false_imp,
          beq_iff_eq, Bool.not_eq_true]
        by_cases h1 : a.file_id = fid
        · have h2 : ¬ idx ≤ a.chunk_index := fun hle => h ⟨h1, hle⟩
          simp [h1]
          omega
        · simp [h1]
      have hst' : (insertOrReplaceEmbedding st fid idx t e).embeddings =
          st.embeddings ++ [⟨fid, idx, t, e⟩] := by
        simp only [insertOrReplaceEmbedding]
        rw [hfilter]
      have hpre' : ∀ r ∈ (insertOrReplaceEmbedding st fid idx t e).embeddings,
          ¬(r.file_id = fid ∧ idx + 1 ≤ r.chunk_index) := by
        intro r hr
        rw [hst'] at hr
        rcases List.mem_append.mp hr with h | h
        · rintro ⟨h1, h2⟩
          exact hpre r h ⟨h1, by omega⟩
        · simp only [List.mem_singleton] at h
          subst h
          rintro ⟨-, h2⟩
          simp only [show (⟨fid, idx, t, e⟩ : EmbRow).chunk_index = idx from rfl] at h2
          omega
      obtain ⟨rows, h1, h2, h3, h4, h5, h6⟩ :=
        ih es' (idx + 1) (insertOrReplaceEmbedding st fid idx t e) hpre'
      have hstep : insertBatch fid idx (t :: ts) (e :: es') st =
          insertBatch fid (idx + 1) ts es' (insertOrReplaceEmbedding st fid idx t e) := by
        rfl
      refine ⟨⟨fid, idx, t, e⟩ :: rows, ?_, ?_, ?_, ?_, ?_, ?_⟩
      · rw [hstep, h1]; rfl
      · rw [hstep, h2]; rfl
      · rw [hstep, h3, hst']; simp
      · intro r hr
        rcases List.mem_cons.mp hr with h | h
        · subst h; exact ⟨rfl, le_refl idx⟩
        · obtain ⟨ha, hb⟩ := h4 r h
          exact ⟨ha, by omega⟩
      · simp only [List.map_cons, List.length_cons, List.take_succ_cons]
        rw [h5]
        rfl
      · rw [hstep, h6]
        simp

theorem take_length_take (l : List α) (k : Nat) :
    l.take ((l.take k).length) = l.take k := by
  rw [List.length_take]
  rcases le_total k l.length with h | h
  · rw [min_eq_left h]
  · rw [min_eq_right h, List.take_length, List.take_of_length_le h]

theorem processChunks_spec (client : Client) (fid : Nat)
    (chunks : List (List Char)) (i : Nat) (st : Store) :
    (∀ e ∈ st.embeddings, ¬(e.file_id = fid ∧ i ≤ e.chunk_index)) →
    ∃ (n : Nat) (rows : List EmbRow),
      n ≤ chunks.length ∧
      (processChunks client fid chunks i st).1.nextId = st.nextId ∧
      (processChunks client fid chunks i st).1.files = st.files ∧
      (processChunks client fid chunks i st).1.embeddings =
        st.embeddings ++ rows ∧
      (∀ e ∈ rows, e.file_id = fid ∧ i ≤ e.chunk_index) ∧
      rows.map (fun e => (e.chunk_index, e.chunk_text)) =
        List.enumFrom i (chunks.take n) ∧
      ((processChunks client fid chunks i st).2 = .ok () → n = chunks.length) ∧
      (Client.Sound client → ∀ err : Unit,
        (processChunks client fid chunks i st).2 = .error err →
        ∃ m, n = 20 * m ∧ client ((chunks.drop n).take 20) = .error err) := by
  induction chunks, i, st using processChunks.induct client fid with
  | case1 i st =>
    intro hpre
    have hres : processChunks client fid [] i st = (st, .ok ()) := by
      rw [processChunks]
      simp
    refine ⟨0, [], by simp, by rw [hres], by rw [hres], by rw [hres]; simp,
      by simp, by simp, fun _ => by simp, ?_⟩
    intro hs err herr
    rw [hres] at herr
    simp at herr
  | case2 chunks i st hnil embsErr hcl =>
    intro hpre
    have hres : processChunks client fid chunks i st = (st, .error embsErr) := by
      rw [processChunks, dif_neg hnil, hcl]
    refine ⟨0, [], by simp, by rw [hres], by rw [hres], by rw [hres]; simp,
      by simp, by simp, ?_, ?_⟩
    · intro hok
      rw [hres] at hok
      simp at hok
    · intro hs err herr
      cases err
      cases embsErr
      refine ⟨0, rfl, ?_⟩
      simpa using hcl
  | case3 chunks i st hnil embs hcl st1 e hib =>
    intro hpre
    have hres : processChunks client fid chunks i st = (st1, .error e) := by
      rw [processChunks, dif_neg hnil]
      simp only [hcl, hib]
    obtain ⟨rows, hb1, hb2, hb3, hb4, hb5, hb6⟩ :=
      insertBatch_spec fid (chunks.take 20) embs i st hpre
    rw [hib] at hb1 hb2 hb3
    refine ⟨((chunks.take 20).take embs.length).length, rows, ?_,
      by rw [hres]; exact hb1, by rw [hres]; exact hb2,
      by rw [hres]; exact hb3, hb4, ?_, ?_, ?_⟩
    · simp only [List.length_take]
      omega
    · rw [hb5]
      congr 1
      rw [List.take_take, take_length_take]
    · intro hok
      rw [hres] at hok
      simp at hok
    · intro hs err herr
      exfalso
      have hlen := hs (chunks.take 20) embs hcl
      have hcontra : (insertBatch fid i (chunks.take 20) embs st).2 = .ok () :=
        hb6.mpr (by omega)
      rw [hib] at hcontra
      simp at hcontra
  | case4 chunks i st hnil embs hcl st1 u hib ih =>
    intro hpre
    have hres : processChunks client fid chunks i st =
        processChunks client fid (chunks.drop 20) (i + 20) st1 := by
      rw [processChunks, dif_neg hnil]
      simp only [hcl, hib]
    obtain ⟨rowsB, hb1, hb2, hb3, hb4, hb5, hb6⟩ :=
      insertBatch_spec fid (chunks.take 20) embs i st hpre
    rw [hib] at hb1 hb2 hb3
    have hlenB : (chunks.take 20).length ≤ embs.length := by
      apply hb6.mp
      rw [hib]
    have hfull : (chunks.take 20).take embs.length = chunks.take 20 :=
      List.take_of_length_le hlenB
    rw [hfull] at hb5
    have hboundB : ∀ r ∈ rowsB, r.chunk_index < i + 20 := by
      intro r hr
      have hmem : (r.chunk_index, r.chunk_text) ∈
          List.enumFrom i (chunks.take 20) := by
        rw [← hb5]
        exact List.mem_map_of_mem _ hr
      have := List.mem_enumFrom hmem
      have hl : (chunks.take 20).length ≤ 20 := by simp
      omega
    have hpre1 : ∀ r ∈ st1.embeddings,
        ¬(r.file_id = fid ∧ i + 20 ≤ r.chunk_index) := by
      intro r hr
      rw [hb3] at hr
      rcases List.mem_append.mp hr with h | h
      · rintro ⟨h1, h2⟩
        exact hpre r h ⟨h1, by omega⟩
      · rintro ⟨h1, h2⟩
        have := hboundB r h
        omega
    obtain ⟨nR, rowsR, hr1, hr2, hr3, hr4, hr5, hr6, hr7, hr8⟩ := ih hpre1
    refine ⟨(chunks.take 20).length + nR, rowsB ++ rowsR, ?_, ?_, ?_, ?_, ?_,
      ?_, ?_, ?_⟩
    · simp only [List.length_take]
      have := hr1
      simp only [List.length_drop] at this
      omega
    · rw [hres, hr2, hb1]
    · rw [hres, hr3, hb2]
    · rw [hres, hr4, hb3, List.append_assoc]
    · intro r hr
      rcases List.mem_append.mp hr with h | h
      · exact hb4 r h
      · obtain ⟨h1, h2⟩ := hr5 r h
        exact ⟨h1, by omega⟩
    · rw [List.map_append, hb5, hr6]
      have hsplit : chunks.take ((chunks.take 20).length + nR) =
          chunks.take 20 ++ (chunks.drop 20).take nR := by
        rcases le_total 20 chunks.length with h | h
        · have h20 : (chunks.take 20).length = 20 := by
            simp [List.length_take]
            omega
          rw [h20, List.take_add]
        · have hdrop : chunks.drop 20 = [] := by
            apply List.drop_eq_nil_of_le h
          have hnR : nR = 0 := by
            have := hr1
            rw [hdrop] at this
            simpa using this
          have h20 : (chunks.take 20).length = chunks.length := by
            simp [List.length_take]
            omega
          rw [hnR, hdrop, h20]
          simp [List.take_of_length_le h, List.take_of_length_le (le_refl chunks.length), List.take_length]
      rw [hsplit, List.enumFrom_append]
      rcases le_total 20 chunks.length with h | h
      · have h20 : (chunks.take 20).length = 20 := by
          simp [List.length_take]; omega
        rw [h20]
      · have hdrop : chunks.drop 20 = [] := List.drop_eq_nil_of_le h
        have hnR : nR = 0 := by
          have := hr1; rw [hdrop] at this; simpa using this
        rw [hdrop, hnR]
        simp
    · intro hok
      rw [hres] at hok
      have := hr7 hok
      simp only [List.length_take, List.length_drop] at this ⊢
      omega
    · intro hs err herr
      rw [hres] at herr
      obtain ⟨mR, hm1, hm2⟩ := hr8 hs err herr
      rcases le_total 20 chunks.length with h | h
      · have h20 : (chunks.take 20).length = 20 := by
          simp [List.length_take]; omega
        refine ⟨1 + mR, by omega, ?_⟩
        rw [h20, hm1]
        have : chunks.drop (20 + 20 * mR) = (chunks.drop 20).drop (20 * mR) := by
          rw [List.drop_drop]
        rw [this]
        rw [hm1] at hm2
        exact hm2
      · exfalso
        have hdrop : chunks.drop 20 = [] := List.drop_eq_nil_of_le h
        rw [hdrop] at herr
        have : processChunks client fid [] (i + 20) st1 = (st1, .ok ()) := by
          rw [processChunks]; simp
        rw [this] at herr
        simp at herr

/-- What one `indexFile` call does to the store, for any outcome: the
rowid counter advances by one, the path's old row is replaced by a new
row with the fresh rowid, the old chunk rows of that path are
cascade-deleted, and the appended chunk rows carry the fresh rowid and
enumerate a prefix of the chunking (the whole chunking on success; on
failure with a length-correct client, whole batches of 20 with the
client failing on the next batch). -/
theorem indexFile_spec (client : Client) (st : Store) (f : IndexedFile)
    (hwf : st.WF) :
    ∃ (n : Nat) (rows : List EmbRow),
      (indexFile client st f).1.nextId = st.nextId + 1 ∧
      (indexFile client st f).1.files =
        st.files.filter (fun r => !(r.path == f.path)) ++
          [⟨st.nextId, f.path, f.content, f.mtime, f.size, f.extension⟩] ∧
      (indexFile client st f).1.embeddings =
        st.embeddings.filter
          (fun e => !((idsFor st f.path).contains e.file_id)) ++ rows ∧
      (∀ e ∈ rows, e.file_id = st.nextId) ∧
      n ≤ (chunkText f.content 500).length ∧
      rows.map (fun e => (e.chunk_index, e.chunk_text)) =
        List.enumFrom 0 ((chunkText f.content 500).take n) ∧
      ((indexFile client st f).2 = .ok () →
        n = (chunkText f.content 500).length) ∧
      (Client.Sound client → ∀ err,
        (indexFile client st f).2 = .error err →
        ∃ m, n = 20 * m ∧
          client (((chunkText f.content 500).drop n).take 20) = .error err) := by
  have hpre : ∀ e ∈ (insertOrReplaceFile st f).1.embeddings,
      ¬(e.file_id = st.nextId ∧ 0 ≤ e.chunk_index) := by
    intro e he
    rintro ⟨h1, -⟩
    have hmem : e ∈ st.embeddings := by
      simp only [insertOrReplaceFile] at he
      exact List.mem_of_mem_filter he
    obtain ⟨fr, hfr, hid⟩ := hwf.emb_owned e hmem
    have := hwf.ids_lt fr hfr
    omega
  obtain ⟨n, rows, hc1, hc2, hc3, hc4, hc5, hc6, hc7, hc8⟩ :=
    processChunks_spec client st.nextId (chunkText f.content 500) 0
      (insertOrReplaceFile st f).1 hpre
  have heq : indexFile client st f =
      processChunks client st.nextId (chunkText f.content 500) 0
        (insertOrReplaceFile st f).1 := rfl
  refine ⟨n, rows, ?_, ?_, ?_, fun e he => (hc5 e he).1, hc1, hc6, ?_, ?_⟩
  · rw [heq, hc2]
    rfl
  · rw [heq, hc3]
    rfl
  · rw [heq, hc4]
    rfl
  · intro hok
    rw [heq] at hok
    exact hc7 hok
  · intro hs err herr
    rw [heq] at herr
    exact hc8 hs err herr

/-- Members of `idsFor` are rowids of stored rows of that path. -/
theorem idsFor_mem (st : Store) (p : String) (a : Nat) (ha : a ∈ idsFor st p) :
    ∃ r ∈ st.files, r.id = a ∧ r.path = p := by
  unfold idsFor filesFor at ha
  obtain ⟨r, hr, hid⟩ := List.mem_map.mp ha
  refine ⟨r, List.mem_of_mem_filter hr, hid, ?_⟩
  have := List.of_mem_filter hr
  simpa using this

theorem idsFor_lt (st : Store) (hwf : st.WF) (p : String) (a : Nat)
    (ha : a ∈ idsFor st p) : a < st.nextId := by
  obtain ⟨r, hr, hid, -⟩ := idsFor_mem st p a ha
  have := hwf.ids_lt r hr
  omega

/-- Under distinct rowids, rowid sets of distinct paths are disjoint. -/
theorem idsFor_disjoint (st : Store) (hwf : st.WF) (p q : String)
    (hpq : p ≠ q) (a : Nat) (hp : a ∈ idsFor st p) (hq : a ∈ idsFor st q) :
    False := by
  obtain ⟨r1, hr1, hid1, hp1⟩ := idsFor_mem st p a hp
  obtain ⟨r2, hr2, hid2, hp2⟩ := idsFor_mem st q a hq
  have heq : r1 = r2 := by
    have hinj := List.inj_on_of_nodup_map hwf.ids_nodup
    exact hinj hr1 hr2 (by rw [hid1, hid2])
  apply hpq
  rw [← hp1, heq, hp2]

/-- Processing one file preserves the store invariants, whether the
embedding batches succeed or fail. -/
theorem indexFile_wf (client : Client) (st : Store) (f : IndexedFile)
    (hwf : st.WF) : ((indexFile client st f).1).WF := by
  obtain ⟨n, rows, h1, h2, h3, h4, h5, h6, h7, h8⟩ :=
    indexFile_spec client st f hwf
  constructor
  · rw [h2]
    simp only [List.map_append, List.map_cons, List.map_nil]
    rw [List.nodup_append]
    refine ⟨?_, by simp, ?_⟩
    · exact ((List.filter_sublist _).map _).nodup hwf.ids_nodup
    · intro a ha
      obtain ⟨r, hr, hid⟩ := List.mem_map.mp ha
      have := hwf.ids_lt r (List.mem_of_mem_filter hr)
      simp only [List.mem_cons, List.not_mem_nil, or_false]
      omega
  · rw [h2]
    simp only [List.map_append, List.map_cons, List.map_nil]
    rw [List.nodup_append]
    refine ⟨?_, by simp, ?_⟩
    · exact ((List.filter_sublist _).map _).nodup hwf.paths_nodup
    · intro a ha
      obtain ⟨r, hr, hid⟩ := List.mem_map.mp ha
      have := List.of_mem_filter hr
      simp only [List.mem_cons, List.not_mem_nil, or_false]
      intro hcontra
      rw [hcontra] at hid
      simp only [Bool.not_eq_eq_eq_not, Bool.not_true, beq_eq_false_iff_ne,
        ne_eq] at this
      exact this hid
  · intro r hr
    rw [h2] at hr
    rw [h1]
    rcases List.mem_append.mp hr with h | h
    · have := hwf.ids_lt r (List.mem_of_mem_filter h)
      omega
    · simp only [List.mem_cons, List.not_mem_nil, or_false] at h
      rw [h]
      simp
  · intro e he
    rw [h3] at he
    rcases List.mem_append.mp he with h | h
    · have hmem : e ∈ st.embeddings := List.mem_of_mem_filter h
      obtain ⟨fr, hfr, hid⟩ := hwf.emb_owned e hmem
      have hcond := List.of_mem_filter h
      have hfrpath : ¬ fr.path = f.path := by
        intro hcontra
        have : e.file_id ∈ idsFor st f.path := by
          unfold idsFor filesFor
          apply List.mem_map.mpr
          refine ⟨fr, ?_, hid⟩
          apply List.mem_filter.mpr
          exact ⟨hfr, by simp [hcontra]⟩
        simp at hcond
        exact hcond this
      refine ⟨fr, ?_, hid⟩
      rw [h2]
      apply List.mem_append_left
      apply List.mem_filter.mpr
      exact ⟨hfr, by simp [hfrpath]⟩
    · refine ⟨⟨st.nextId, f.path, f.content, f.mtime, f.size, f.extension⟩,
        ?_, ?_⟩
      · rw [h2]
        apply List.mem_append_right
        simp
      · exact (h4 e h).symm

/-- Frame property: processing a file leaves every other path's file
rows and joined chunk rows untouched, whether it succeeds or fails. -/
theorem indexFile_frame (client : Client) (st : Store) (f : IndexedFile)
    (hwf : st.WF) (p : String) (hp : p ≠ f.path) :
    untouchedAt st (indexFile client st f).1 p := by
  obtain ⟨n, rows, h1, h2, h3, h4, h5, h6, h7, h8⟩ :=
    indexFile_spec client st f hwf
  constructor
  · unfold filesFor
    rw [h2, List.filter_append]
    have hnew : List.filter (fun r => r.path == p)
        ([⟨st.nextId, f.path, f.content, f.mtime, f.size, f.extension⟩] :
          List FileRow) = [] := by
      simp [Ne.symm hp]
    rw [hnew, List.append_nil, List.filter_filter]
    apply List.filter_congr
    intro r hr
    by_cases hap : r.path = p
    · have : ¬ r.path = f.path := by rw [hap]; exact hp
      simp [hap, this, hp]
    · simp [hap]
  · rw [h3, List.filter_append]
    have hrows : rows.filter
        (fun e => (idsFor st p).contains e.file_id) = [] := by
      apply List.filter_eq_nil_iff.mpr
      intro e he
      have hfid := h4 e he
      intro hcontra
      simp only [List.elem_eq_mem, decide_eq_true_eq] at hcontra
      have := idsFor_lt st hwf p e.file_id hcontra
      omega
    rw [hrows, List.append_nil, List.filter_filter]
    apply List.filter_congr
    intro e he
    by_cases hc : e.file_id ∈ idsFor st p
    · have hnotf : e.file_id ∉ idsFor st f.path := fun hf =>
        idsFor_disjoint st hwf p f.path hp e.file_id hc hf
      simp [hc, hnotf]
    · simp [hc]

theorem untouchedAt_refl (st : Store) (p : String) : untouchedAt st st p :=
  ⟨rfl, rfl⟩

theorem untouchedAt_trans (st1 st2 st3 : Store) (p : String)
    (ha : untouchedAt st1 st2 p) (hb : untouchedAt st2 st3 p) :
    untouchedAt st1 st3 p := by
  obtain ⟨ha1, ha2⟩ := ha
  obtain ⟨hb1, hb2⟩ := hb
  have hids : idsFor st2 p = idsFor st1 p := by
    unfold idsFor
    rw [ha1]
  refine ⟨hb1.trans ha1, ?_⟩
  rw [hids] at hb2
  rw [hb2, ha2]

/-- A committed file stays committed while its path is untouched. -/
theorem committedIn_of_untouched (st st' : Store) (f : IndexedFile)
    (hc : committedIn st f) (hu : untouchedAt st st' f.path) :
    committedIn st' f := by
  obtain ⟨hc1, hc2⟩ := hc
  obtain ⟨hu1, hu2⟩ := hu
  have hids : idsFor st' f.path = idsFor st f.path := by
    unfold idsFor
    rw [hu1]
  constructor
  · rw [hu1]
    exact hc1
  · unfold chunksFor at hc2 ⊢
    rw [hids, hu2]
    exact hc2

/-- The state of a file's own path after one `indexFile` call, for any
outcome: exactly one record carrying the file's data, and the joined
chunk rows enumerating a prefix of the chunking (all of it on success;
on failure with a length-correct client, whole batches with the client
failing on the next one). -/
theorem indexFile_path_state (client : Client) (st : Store)
    (f : IndexedFile) (hwf : st.WF) :
    ∃ n : Nat,
      (filesFor (indexFile client st f).1 f.path).map
          (fun r => (r.content, r.mtime, r.size, r.extension)) =
        [(f.content, f.mtime, f.size, f.extension)] ∧
      (chunksFor (indexFile client st f).1 f.path).map
          (fun e => (e.chunk_index, e.chunk_text)) =
        List.enumFrom 0 ((chunkText f.content 500).take n) ∧
      n ≤ (chunkText f.content 500).length ∧
      ((indexFile client st f).2 = .ok () →
        n = (chunkText f.content 500).length) ∧
      (Client.Sound client → ∀ err,
        (indexFile client st f).2 = .error err →
        ∃ m, n = 20 * m ∧
          client (((chunkText f.content 500).drop n).take 20) =
            .error err) := by
  obtain ⟨n, rows, h1, h2, h3, h4, h5, h6, h7, h8⟩ :=
    indexFile_spec client st f hwf
  have hfiles : filesFor (indexFile client st f).1 f.path =
      [⟨st.nextId, f.path, f.content, f.mtime, f.size, f.extension⟩] := by
    unfold filesFor
    rw [h2, List.filter_append, List.filter_filter]
    have hleft : List.filter
        (fun a => (a.path == f.path) && !(a.path == f.path)) st.files =
        [] := by
      apply List.filter_eq_nil_iff.mpr
      intro r hr
      by_cases h : r.path = f.path <;> simp [h]
    rw [hleft]
    simp
  have hids : idsFor (indexFile client st f).1 f.path = [st.nextId] := by
    unfold idsFor
    rw [hfiles]
    rfl
  have hchunks : chunksFor (indexFile client st f).1 f.path = rows := by
    unfold chunksFor
    rw [hids, h3, List.filter_append]
    have hleft : (st.embeddings.filter
        (fun e => !((idsFor st f.path).contains e.file_id))).filter
        (fun e => ([st.nextId].contains e.file_id)) = [] := by
      apply List.filter_eq_nil_iff.mpr
      intro e he
      have hmem : e ∈ st.embeddings := List.mem_of_mem_filter he
      obtain ⟨fr, hfr, hid⟩ := hwf.emb_owned e hmem
      have hlt := hwf.ids_lt fr hfr
      simp only [List.contains_cons, List.contains_nil, Bool.or_false,
        beq_iff_eq, Bool.not_eq_true]
      omega
    have hright : rows.filter
        (fun e => ([st.nextId].contains e.file_id)) = rows := by
      apply List.filter_eq_self.mpr
      intro e he
      have := h4 e he
      simp only [List.contains_cons, List.contains_nil, Bool.or_false,
        beq_iff_eq]
      omega
    rw [hleft, hright, List.nil_append]
  refine ⟨n, ?_, ?_, h5, h7, h8⟩
  · rw [hfiles]
    rfl
  · rw [hchunks, h6]

theorem indexFiles_wf (client : Client) :
    ∀ (files : List IndexedFile) (st : Store), st.WF →
      ((indexFiles client st files).1).WF := by
  intro files
  induction files with
  | nil => intro st hwf; exact hwf
  | cons f fs ih =>
    intro st hwf
    cases h : indexFile client st f with
    | mk st1 res =>
      have hwf1 : st1.WF := by
        have := indexFile_wf client st f hwf
        rw [h] at this
        exact this
      cases res with
      | ok u =>
        have heq : indexFiles client st (f :: fs) =
            indexFiles client st1 fs := by
          simp only [indexFiles]
          rw [h]
        rw [heq]
        exact ih st1 hwf1
      | error e =>
        have heq : indexFiles client st (f :: fs) = (st1, .error e) := by
          simp only [indexFiles]
          rw [h]
        rw [heq]
        exact hwf1

theorem indexFiles_frame (client : Client) :
    ∀ (files : List IndexedFile) (st : Store) (p : String), st.WF →
      p ∉ files.map (·.path) →
      untouchedAt st (indexFiles client st files).1 p := by
  intro files
  induction files with
  | nil => intro st p hwf hp; exact untouchedAt_refl st p
  | cons f fs ih =>
    intro st p hwf hp
    simp only [List.map_cons, List.mem_cons, not_or] at hp
    obtain ⟨hp1, hp2⟩ := hp
    cases h : indexFile client st f with
    | mk st1 res =>
      have hu1 : untouchedAt st st1 p := by
        have := indexFile_frame client st f hwf p hp1
        rw [h] at this
        exact this
      have hwf1 : st1.WF := by
        have := indexFile_wf client st f hwf
        rw [h] at this
        exact this
      cases res with
      | ok u =>
        have heq : indexFiles client st (f :: fs) =
            indexFiles client st1 fs := by
          simp only [indexFiles]
          rw [h]
        rw [heq]
        exact untouchedAt_trans st st1 _ p hu1 (ih st1 p hwf1 hp2)
      | error e =>
        have heq : indexFiles client st (f :: fs) = (st1, .error e) := by
          simp only [indexFiles]
          rw [h]
        rw [heq]
        exact hu1

theorem indexFiles_ok_committed (client : Client) :
    ∀ (files : List IndexedFile) (st : Store), st.WF →
      (files.map (·.path)).Nodup →
      (indexFiles client st files).2 = .ok () →
      ∀ f ∈ files, committedIn (indexFiles client st files).1 f := by
  intro files
  induction files with
  | nil =>
    intro st hwf hnd hok f hf
    simp at hf
  | cons f fs ih =>
    intro st hwf hnd hok g hg
    simp only [List.map_cons, List.nodup_cons] at hnd
    obtain ⟨hnotin, hnd2⟩ := hnd
    cases h : indexFile client st f with
    | mk st1 res =>
      have hwf1 : st1.WF := by
        have := indexFile_wf client st f hwf
        rw [h] at this
        exact this
      cases res with
      | error e =>
        exfalso
        have heq : indexFiles client st (f :: fs) = (st1, .error e) := by
          simp only [indexFiles]
          rw [h]
        rw [heq] at hok
        simp at hok
      | ok u =>
        cases u
        have heq : indexFiles client st (f :: fs) =
            indexFiles client st1 fs := by
          simp only [indexFiles]
          rw [h]
        rw [heq] at hok ⊢
        rcases List.mem_cons.mp hg with hgf | hgfs
        · subst hgf
          have hcom : committedIn st1 g := by
            obtain ⟨n, hp1, hp2, hp3, hp4, hp5⟩ :=
              indexFile_path_state client st g hwf
            have hn : n = (chunkText g.content 500).length := by
              apply hp4
              rw [h]
            constructor
            · rw [h] at hp1
              exact hp1
            · rw [h] at hp2
              rw [hp2, hn, List.take_length]
              rfl
          exact committedIn_of_untouched st1 _ g hcom
            (indexFiles_frame client fs st1 g.path hwf1 hnotin)
        · exact ih st1 hwf1 hnd2 hok g hgfs

theorem indexFiles_error_split (client : Client) :
    ∀ (files : List IndexedFile) (st : Store) (err : Unit),
      (indexFiles client st files).2 = .error err →
      ∃ pre fk post stPre,
        files = pre ++ fk :: post ∧
        indexFiles client st pre = (stPre, .ok ()) ∧
        indexFile client stPre fk =
          ((indexFiles client st files).1, .error err) := by
  intro files
  induction files with
  | nil =>
    intro st err h
    simp [indexFiles] at h
  | cons f fs ih =>
    intro st err h
    cases hf : indexFile client st f with
    | mk st1 res =>
      cases res with
      | error e =>
        cases e
        cases err
        have heq : indexFiles client st (f :: fs) = (st1, .error ()) := by
          simp only [indexFiles]
          rw [hf]
        refine ⟨[], f, fs, st, rfl, rfl, ?_⟩
        rw [heq]
        exact hf
      | ok u =>
        cases u
        have heq : indexFiles client st (f :: fs) =
            indexFiles client st1 fs := by
          simp only [indexFiles]
          rw [hf]
        rw [heq] at h
        obtain ⟨pre, fk, post, stPre, hsp, hpre, hfk⟩ := ih st1 err h
        refine ⟨f :: pre, fk, post, stPre, by rw [hsp]; rfl, ?_, ?_⟩
        · have hpp : indexFiles client st (f :: pre) =
              indexFiles client st1 pre := by
            simp only [indexFiles]
            rw [hf]
          rw [hpp, hpre]
        · rw [heq]
          exact hfk

/-- C1: after a successful re-indexing of the same path, exactly one
file record for that path exists, carrying the latest data, and the
chunk rows joined to it are exactly the chunking of the latest content
(contiguous indices from 0, no duplicate or stale rows); no orphaned
chunk row survives anywhere in the store. -/
theorem c1_reindex_single_record (client client' : Client)
    (st st1 st2 : Store) (f g : IndexedFile) (hwf : st.WF)
    (hpath : g.path = f.path)
    (h1 : indexFiles client st [f] = (st1, .ok ()))
    (h2 : indexFiles client' st1 [g] = (st2, .ok ())) :
    committedIn st2 g ∧
    ∀ e ∈ st2.embeddings, ∃ fr ∈ st2.files, fr.id = e.file_id := by
  have hwf1 : st1.WF := by
    have := indexFiles_wf client [f] st hwf
    rw [h1] at this
    exact this
  have hcom : committedIn st2 g := by
    have := indexFiles_ok_committed client' [g] st1 hwf1 (by simp)
      (by rw [h2]) g (by simp)
    rw [h2] at this
    exact this
  have hwf2 : st2.WF := by
    have := indexFiles_wf client' [g] st1 hwf1
    rw [h2] at this
    exact this
  exact ⟨hcom, hwf2.emb_owned⟩

/-- Witness for `c1_reindex_single_record`: the path p indexed twice
with contents x then y through the always-succeeding client. -/
theorem c1_witness :
    committedIn ⟨3, [⟨2, "p", ['y'], 5, 1, ""⟩], [⟨2, 0, ['y'], [1]⟩]⟩ dupB ∧
    ∀ e ∈ (⟨3, [⟨2, "p", ['y'], 5, 1, ""⟩],
        [⟨2, 0, ['y'], [1]⟩]⟩ : Store).embeddings,
      ∃ fr ∈ (⟨3, [⟨2, "p", ['y'], 5, 1, ""⟩],
          [⟨2, 0, ['y'], [1]⟩]⟩ : Store).files, fr.id = e.file_id :=
  c1_reindex_single_record okClient okClient emptyStore
    ⟨2, [⟨1, "p", ['x'], 0, 1, ""⟩], [⟨1, 0, ['x'], [1]⟩]⟩
    ⟨3, [⟨2, "p", ['y'], 5, 1, ""⟩], [⟨2, 0, ['y'], [1]⟩]⟩
    dupA dupB (by constructor <;> simp [emptyStore]) (by decide)
    (by with_unfolding_all rfl) (by with_unfolding_all rfl)

/-- C5 (amended): when the Embedding Client fails partway through an
`indexFiles` call whose input paths are distinct, the call fails, every
file before the failing one remains fully committed in the final store,
and every file after the failing one is completely untouched. -/
theorem c5_failure_granularity (client : Client) (st : Store)
    (files : List IndexedFile) (err : Unit) (hwf : st.WF)
    (hnd : (files.map (·.path)).Nodup)
    (hfail : (indexFiles client st files).2 = .error err) :
    ∃ pre fk post,
      files = pre ++ fk :: post ∧
      (∀ f ∈ pre, committedIn (indexFiles client st files).1 f) ∧
      (∀ f ∈ post, untouchedAt st (indexFiles client st files).1 f.path) := by
  obtain ⟨pre, fk, post, stPre, hsp, hpre, hfk⟩ :=
    indexFiles_error_split client files st err hfail
  subst hsp
  rw [List.map_append, List.map_cons] at hnd
  obtain ⟨hnd1, hnd2, hdisj⟩ := List.nodup_append.mp hnd
  rw [List.nodup_cons] at hnd2
  obtain ⟨hfknotin, hndpost⟩ := hnd2
  have hwfPre : stPre.WF := by
    have := indexFiles_wf client pre st hwf
    rw [hpre] at this
    exact this
  have hfinal : (indexFile client stPre fk).1 =
      (indexFiles client st (pre ++ fk :: post)).1 := by rw [hfk]
  refine ⟨pre, fk, post, rfl, ?_, ?_⟩
  · intro f hf
    have hc1 : committedIn stPre f := by
      have := indexFiles_ok_committed client pre st hwf hnd1
        (by rw [hpre]) f hf
      rw [hpre] at this
      exact this
    have hne : f.path ≠ fk.path := by
      intro hcontra
      exact hdisj (List.mem_map_of_mem _ hf)
        (by rw [hcontra]; exact List.mem_cons_self _ _)
    have hu : untouchedAt stPre (indexFile client stPre fk).1 f.path :=
      indexFile_frame client stPre fk hwfPre f.path hne
    rw [hfinal] at hu
    exact committedIn_of_untouched stPre _ f hc1 hu
  · intro f hf
    have hne_fk : f.path ≠ fk.path := by
      intro hcontra
      apply hfknotin
      rw [← hcontra]
      exact List.mem_map_of_mem _ hf
    have hnotpre : f.path ∉ pre.map (·.path) := by
      intro hcontra
      exact hdisj hcontra
        (List.mem_cons_of_mem _ (List.mem_map_of_mem _ hf))
    have hu1 : untouchedAt st stPre f.path := by
      have := indexFiles_frame client pre st f.path hwf hnotpre
      rw [hpre] at this
      exact this
    have hu2 : untouchedAt stPre
        (indexFiles client st (pre ++ fk :: post)).1 f.path := by
      have := indexFile_frame client stPre fk hwfPre f.path hne_fk
      rw [hfinal] at this
      exact this
    exact untouchedAt_trans _ _ _ _ hu1 hu2

/-- C5 is false as stated when the input list repeats a path: indexing
[A, B] with A and B sharing path p, where the client fails during B,
first replaces A's committed record with B's row (file rows are
inserted before any embedding call), so A — a file strictly before the
failure position — does not remain fully committed. -/
theorem c5_duplicate_path_counterexample :
    (indexFiles failYClient emptyStore [dupA, dupB]).2 = .error () ∧
    (indexFiles failYClient emptyStore [dupA]).2 = .ok () ∧
    ¬ committedIn (indexFiles failYClient emptyStore [dupA, dupB]).1 dupA := by
  refine ⟨by with_unfolding_all rfl, by with_unfolding_all rfl, ?_⟩
  intro hcom
  obtain ⟨h1, h2⟩ := hcom
  have hval : (filesFor
      (indexFiles failYClient emptyStore [dupA, dupB]).1 dupA.path).map
      (fun r => (r.content, r.mtime, r.size, r.extension)) =
      [(['y'], 5, 1, "")] := by
    with_unfolding_all rfl
  rw [hval] at h1
  exact absurd h1 (by decide)

/-- Witness for `c5_failure_granularity`: three distinct files indexed
from the empty store with the client failing on the middle one. -/
theorem c5_witness :
    emptyStore.WF ∧
    (([fileX, fileY, fileZ].map (·.path)).Nodup) ∧
    (indexFiles failYClient emptyStore [fileX, fileY, fileZ]).2 =
      .error () ∧
    ∃ pre fk post,
      [fileX, fileY, fileZ] = pre ++ fk :: post ∧
      (∀ f ∈ pre, committedIn
        (indexFiles failYClient emptyStore [fileX, fileY, fileZ]).1 f) ∧
      (∀ f ∈ post, untouchedAt emptyStore
        (indexFiles failYClient emptyStore [fileX, fileY, fileZ]).1
        f.path) := by
  have hwf : emptyStore.WF := by constructor <;> simp [emptyStore]
  have hnd : (([fileX, fileY, fileZ].map (·.path))).Nodup := by decide
  have hfail : (indexFiles failYClient emptyStore
      [fileX, fileY, fileZ]).2 = .error () := by
    with_unfolding_all rfl
  exact ⟨hwf, hnd, hfail,
    c5_failure_granularity failYClient emptyStore [fileX, fileY, fileZ]
      () hwf hnd hfail⟩

/-- C8 is false as stated: `indexFiles` resolves with no value (the unit
value of `Promise<void>`), not with a count.  Successful calls with
zero files and with one file resolve with the same value, so no reading
of the resolved value can equal the number of files processed. -/
theorem c8_no_count_counterexample :
    (indexFiles okClient emptyStore [fileX]).2 = .ok () ∧
    (indexFiles okClient emptyStore []).2 = .ok () ∧
    ¬ ∃ toCount : Unit → Nat,
        ∀ (fs : List IndexedFile) (st st2 : Store) (r : Unit),
          indexFiles okClient st fs = (st2, .ok r) →
            toCount r = fs.length := by
  refine ⟨by with_unfolding_all rfl, rfl, ?_⟩
  rintro ⟨g, hg⟩
  have hfull : indexFiles okClient emptyStore [fileX] =
      (⟨2, [⟨1, "x.txt", ['x'], 0, 1, ".txt"⟩], [⟨1, 0, ['x'], [1]⟩]⟩,
        .ok ()) := by
    with_unfolding_all rfl
  have h1 := hg [fileX] emptyStore
    ⟨2, [⟨1, "x.txt", ['x'], 0, 1, ".txt"⟩], [⟨1, 0, ['x'], [1]⟩]⟩ () hfull
  have h0 := hg [] emptyStore emptyStore () rfl
  rw [h0] at h1
  simp at h1

/-- On a successful run over an arbitrary list (repeated paths allowed),
every file whose path does not occur again later in the list ends up
fully committed: the last occurrence of each path wins, since a later
`INSERT OR REPLACE` of the same path overwrites the earlier record. -/
theorem indexFiles_ok_committed_last (client : Client) :
    ∀ (files : List IndexedFile) (st : Store), st.WF →
      (indexFiles client st files).2 = .ok () →
      ∀ pre f post, files = pre ++ f :: post →
        f.path ∉ post.map (·.path) →
        committedIn (indexFiles client st files).1 f := by
  intro files
  induction files with
  | nil =>
    intro st hwf hok pre f post hsp hnot
    simp at hsp
  | cons g gs ih =>
    intro st hwf hok pre f post hsp hnot
    cases h : indexFile client st g with
    | mk st1 res =>
      have hwf1 : st1.WF := by
        have := indexFile_wf client st g hwf
        rw [h] at this
        exact this
      cases res with
      | error e =>
        exfalso
        have heq : indexFiles client st (g :: gs) = (st1, .error e) := by
          simp only [indexFiles]
          rw [h]
        rw [heq] at hok
        simp at hok
      | ok u =>
        cases u
        have heq : indexFiles client st (g :: gs) =
            indexFiles client st1 gs := by
          simp only [indexFiles]
          rw [h]
        rw [heq] at hok ⊢
        cases pre with
        | nil =>
          simp only [List.nil_append, List.cons.injEq] at hsp
          obtain ⟨hgf, hgspost⟩ := hsp
          subst hgf
          subst hgspost
          have hcom : committedIn st1 g := by
            obtain ⟨n, hp1, hp2, hp3, hp4, hp5⟩ :=
              indexFile_path_state client st g hwf
            have hn : n = (chunkText g.content 500).length := by
              apply hp4
              rw [h]
            constructor
            · rw [h] at hp1
              exact hp1
            · rw [h] at hp2
              rw [hp2, hn, List.take_length]
              rfl
          exact committedIn_of_untouched st1 _ g hcom
            (indexFiles_frame client gs st1 g.path hwf1 hnot)
        | cons p ps =>
          simp only [List.cons_append, List.cons.injEq] at hsp
          obtain ⟨-, hsp2⟩ := hsp
          exact ih st1 hwf1 hok ps f post hsp2 hnot

/-- C8 (amended): `indexFiles` returns no value — every successful call
resolves with the same unit value, whatever the number of files, so no
count is returned.  On success every file whose path does not recur
later in the input list (all of them, when the paths are distinct) is
fully committed in the store: the last occurrence of each path wins. -/
theorem c8_returns_unit_processes_all (client : Client) (st : Store)
    (files : List IndexedFile) (r : Unit) (hwf : st.WF)
    (hok : (indexFiles client st files).2 = .ok r) :
    r = () ∧
    ∀ pre f post, files = pre ++ f :: post →
      f.path ∉ post.map (·.path) →
      committedIn (indexFiles client st files).1 f := by
  cases r
  refine ⟨rfl, ?_⟩
  intro pre f post hsp hnot
  exact indexFiles_ok_committed_last client files st hwf hok pre f post
    hsp hnot

/-- Witness for `c8_returns_unit_processes_all`: the duplicate-path list
[dupA, dupB] indexed successfully from the empty store — the last
occurrence dupB is committed. -/
theorem c8_witness :
    () = () ∧
    ∀ pre f post, [dupA, dupB] = pre ++ f :: post →
      f.path ∉ post.map (·.path) →
      committedIn (indexFiles okClient emptyStore [dupA, dupB]).1 f :=
  c8_returns_unit_processes_all okClient emptyStore [dupA, dupB] ()
    (by constructor <;> simp [emptyStore]) (by with_unfolding_all rfl)

/-- The failing sample client honours the one-vector-per-text contract
whenever it succeeds. -/
theorem failYClient_sound : Client.Sound failYClient := by
  intro b out h
  simp only [failYClient] at h
  by_cases hb : b = [['y']]
  · rw [if_pos hb] at h
    exact absurd h (by simp)
  · rw [if_neg hb] at h
    injection h with h'
    rw [← h']
    simp

/-- C10: the file row is inserted before any embedding batch is issued,
so when the (length-correct) Embedding Client fails while some file is
in progress, the final store holds that file's record — visible to
recentFiles whenever its modification time passes the cutoff — joined
to exactly the chunk rows of the batches completed before the failure
(a whole number of batches of 20), and the client fails on the next
batch. -/
theorem c10_partial_file_state (client : Client) (st : Store)
    (files : List IndexedFile) (err : Unit) (hwf : st.WF)
    (hsound : Client.Sound client)
    (hfail : (indexFiles client st files).2 = .error err) :
    ∃ pre fk post m,
      files = pre ++ fk :: post ∧
      (filesFor (indexFiles client st files).1 fk.path).map
          (fun r => (r.content, r.mtime, r.size, r.extension)) =
        [(fk.content, fk.mtime, fk.size, fk.extension)] ∧
      20 * m ≤ (chunkText fk.content 500).length ∧
      (chunksFor (indexFiles client st files).1 fk.path).map
          (fun e => (e.chunk_index, e.chunk_text)) =
        List.enumFrom 0 ((chunkText fk.content 500).take (20 * m)) ∧
      client (((chunkText fk.content 500).drop (20 * m)).take 20) =
        .error err ∧
      (∀ now days : Int, now - days * 86400000 < fk.mtime →
        (⟨fk.path, fk.mtime⟩ : RecentFile) ∈
          getRecentFiles (indexFiles client st files).1 now days) := by
  obtain ⟨pre, fk, post, stPre, hsp, hpre, hfk⟩ :=
    indexFiles_error_split client files st err hfail
  subst hsp
  have hwfPre : stPre.WF := by
    have := indexFiles_wf client pre st hwf
    rw [hpre] at this
    exact this
  have hfinal : (indexFile client stPre fk).1 =
      (indexFiles client st (pre ++ fk :: post)).1 := by rw [hfk]
  obtain ⟨n, hp1, hp2, hp3, hp4, hp5⟩ :=
    indexFile_path_state client stPre fk hwfPre
  have herr : (indexFile client stPre fk).2 = .error err := by rw [hfk]
  obtain ⟨m, hm1, hm2⟩ := hp5 hsound err herr
  subst hm1
  rw [hfinal] at hp1 hp2
  refine ⟨pre, fk, post, m, rfl, hp1, hp3, hp2, hm2, ?_⟩
  intro now days hmt
  cases hlist : filesFor (indexFiles client st (pre ++ fk :: post)).1
      fk.path with
  | nil =>
    rw [hlist] at hp1
    simp at hp1
  | cons row rest =>
    rw [hlist] at hp1
    simp only [List.map_cons, List.cons.injEq, Prod.mk.injEq] at hp1
    obtain ⟨⟨hcont, hmt', hsz, hext⟩, hrest⟩ := hp1
    have hrowmem : row ∈ (indexFiles client st (pre ++ fk :: post)).1.files := by
      have : row ∈ filesFor (indexFiles client st (pre ++ fk :: post)).1
          fk.path := by
        rw [hlist]
        exact List.mem_cons_self _ _
      exact List.mem_of_mem_filter this
    have hrowpath : row.path = fk.path := by
      have : row ∈ filesFor (indexFiles client st (pre ++ fk :: post)).1
          fk.path := by
        rw [hlist]
        exact List.mem_cons_self _ _
      have := List.of_mem_filter this
      simpa using this
    unfold getRecentFiles
    apply List.mem_map.mpr
    refine ⟨row, ?_, ?_⟩
    · apply ((stableSortBy_perm _ _).mem_iff).mpr
      apply List.mem_filter.mpr
      refine ⟨hrowmem, ?_⟩
      simp only [decide_eq_true_eq]
      rw [hmt']
      exact hmt
    · rw [hrowpath, hmt']

/-- Witness for `c10_partial_file_state`: two files indexed from the
empty store, the length-correct client failing on the second file's
only batch. -/
theorem c10_witness :
    emptyStore.WF ∧
    (indexFiles failYClient emptyStore [fileX, fileY]).2 = .error () ∧
    ∃ pre fk post m,
      [fileX, fileY] = pre ++ fk :: post ∧
      (filesFor (indexFiles failYClient emptyStore [fileX, fileY]).1
          fk.path).map
          (fun r => (r.content, r.mtime, r.size, r.extension)) =
        [(fk.content, fk.mtime, fk.size, fk.extension)] ∧
      20 * m ≤ (chunkText fk.content 500).length ∧
      (chunksFor (indexFiles failYClient emptyStore [fileX, fileY]).1
          fk.path).map
          (fun e => (e.chunk_index, e.chunk_text)) =
        List.enumFrom 0 ((chunkText fk.content 500).take (20 * m)) ∧
      failYClient (((chunkText fk.content 500).drop (20 * m)).take 20) =
        .error () ∧
      (∀ now days : Int, now - days * 86400000 < fk.mtime →
        (⟨fk.path, fk.mtime⟩ : RecentFile) ∈
          getRecentFiles
            (indexFiles failYClient emptyStore [fileX, fileY]).1
            now days) := by
  have hwf : emptyStore.WF := by constructor <;> simp [emptyStore]
  have hfail : (indexFiles failYClient emptyStore [fileX, fileY]).2 =
      .error () := by
    with_unfolding_all rfl
  exact ⟨hwf, hfail,
    c10_partial_file_state failYClient emptyStore [fileX, fileY] ()
      hwf failYClient_sound hfail⟩
